import Mathlib

/-!
Verification of the k-fold cross-validation / KNN toolkit
(`src/utils.py`, `src/methods/linear_regression.py`, and the KNN predictor).

Shallow embedding conventions:
* numpy float arrays are embedded as `List ℚ` / `List (List ℚ)` (exact
  rational arithmetic in place of IEEE floats);
* integer index arrays are `List ℕ`;
* the process-wide numpy random source is made explicit: a shuffle stream
  `σ : ℕ → List ℕ → List ℕ` together with a counter `s : ℕ`; each
  `np.random.shuffle` call applies `σ s` to the array it mutates and
  advances the counter to `s + 1`;
* in-place mutation (`np.random.shuffle`) is modelled by explicit state
  passing on a record of the arrays live in the function.
-/

namespace MS1

/-! ### numpy primitives used by `src/utils.py` -/

/-- Embedding of `np.unique` on a 1-D nonnegative-integer array: the sorted
list of distinct values.  For `l : List ℕ` every element is at most
`l.foldr max 0`, so filtering `List.range` yields exactly the sorted
distinct members. -/
def npUnique (l : List ℕ) : List ℕ :=
  (List.range (l.foldr max 0 + 1)).filter (fun x => x ∈ l)

/-- Embedding of `np.setdiff1d(a, b)` on 1-D nonnegative-integer arrays:
the sorted list of distinct values of `a` that are not in `b`. -/
def setdiff1d (a b : List ℕ) : List ℕ :=
  (List.range (a.foldr max 0 + 1)).filter (fun x => x ∈ a ∧ x ∉ b)

/-- Embedding of `np.min` on a 1-D array (`np.min` raises on an empty
array; the `0` default is never reached in the embedded call sites, which
all guard for nonemptiness). -/
def npMin : List ℚ → ℚ
  | [] => 0
  | x :: xs => xs.foldl min x

/-- Embedding of `np.max` on a 1-D array (same convention as `npMin`). -/
def npMax : List ℚ → ℚ
  | [] => 0
  | x :: xs => xs.foldl max x

/-- Helper for `npArgmax`: scan the remaining list, `i` the index of the
next element, `bi`/`bv` the index and value of the best element so far;
only a strictly greater value replaces the current best, so the first
occurrence of the maximum wins — exactly `np.argmax`. -/
def argmaxAux : List ℚ → ℕ → ℕ → ℚ → ℕ
  | [], _, bi, _ => bi
  | x :: xs, i, bi, bv =>
    if bv < x then argmaxAux xs (i + 1) i x else argmaxAux xs (i + 1) bi bv

/-- Embedding of `np.argmax` on a 1-D array: index of the first occurrence
of the maximum (`np.argmax` of an empty array raises; the embedded call
sites only pass nonempty rows). -/
def npArgmax : List ℚ → ℕ
  | [] => 0
  | x :: xs => argmaxAux xs 1 0 x

/-- Embedding of `np.where(arr == v)[0]` for a 1-D array `arr`: the
(ascending) list of indices whose entry equals `v`. -/
def npWhereEqIdx (l : List ℚ) (v : ℚ) : List ℕ :=
  (List.range l.length).filter (fun i => l.getD i 0 = v)

/-- Embedding of `np.max` applied to a list of pairs (numpy converts a
list of 2-tuples to an `(L,2)` array and maximizes over ALL entries,
i.e. over both components). -/
def npMaxPairs (l : List (ℚ × ℚ)) : ℚ :=
  npMax (l.flatMap (fun p => [p.1, p.2]))

/-- Embedding of `np.where(arr2d == v)[0]` for an `(L,2)` array: the row
indices of matching entries in row-major scan order (a row whose two
entries both equal `v` is emitted twice, as numpy does). -/
def npWhereEqRows (l : List (ℚ × ℚ)) (v : ℚ) : List ℕ :=
  (List.range l.length).flatMap (fun i =>
    (if (l.getD i (0, 0)).1 = v then [i] else []) ++
    (if (l.getD i (0, 0)).2 = v then [i] else []))

/-! ### Preprocessing (`src/utils.py` lines 10–90) -/

/-- Embedding of `get_n_classes(labels)`: `int(np.max(labels) + 1)`. -/
def get_n_classes (labels : List ℕ) : ℕ :=
  labels.foldr max 0 + 1

/-- Embedding of `label_to_onehot(labels, C)`.  The source builds
`np.zeros([N, C])` and then scatter-assigns `one_hot_labels[np.arange(N),
labels] = 1`, which sets entry `(i, labels i)` of row `i` to `1`; row `i`
is therefore the length-`C` row that is `1` at column `labels i` and `0`
elsewhere.  `C = none` embeds the Python default `C=None`, inferred via
`get_n_classes`. -/
def label_to_onehot (labels : List ℕ) (Copt : Option ℕ) : List (List ℚ) :=
  let C := Copt.getD (get_n_classes labels)
  labels.map (fun lab => (List.range C).map (fun j => if j = lab then (1 : ℚ) else 0))

/-- Embedding of `onehot_to_label(onehot)`: `np.argmax(onehot, axis=1)`,
i.e. the row-wise first-occurrence argmax. -/
def onehot_to_label (onehot : List (List ℚ)) : List ℕ :=
  onehot.map npArgmax

/-! ### Metrics (`src/utils.py` lines 95–134) -/

/-- Embedding of `accuracy_fn(pred_labels, gt_labels)`:
`np.mean(pred_labels == gt_labels) * 100`. -/
def accuracy_fn (pred_labels gt_labels : List ℕ) : ℚ :=
  let z := pred_labels.zip gt_labels
  ((z.filter (fun p => p.1 = p.2)).length : ℚ) / (z.length : ℚ) * 100

/-- Embedding of `macrof1_fn(pred_labels, gt_labels)`: loop over
`np.unique(gt_labels)`, accumulate per-class F1 except when `tp == 0`
(the `continue` branch), and finally divide by the number of distinct
ground-truth classes. -/
def macrof1_fn (pred_labels gt_labels : List ℕ) : ℚ :=
  let class_ids := npUnique gt_labels
  let z := pred_labels.zip gt_labels
  (class_ids.foldl (fun macrof1 val =>
    let tp := ((z.filter (fun p => p.1 = val ∧ p.2 = val)).length : ℚ)
    let fp := ((z.filter (fun p => p.1 = val ∧ p.2 ≠ val)).length : ℚ)
    let fn := ((z.filter (fun p => p.1 ≠ val ∧ p.2 = val)).length : ℚ)
    if tp = 0 then macrof1
    else
      let prec := tp / (tp + fp)
      let recl := tp / (tp + fn)
      macrof1 + 2 * (prec * recl) / (prec + recl)) 0)
  / (class_ids.length : ℚ)

/-- Embedding of `mse_fn(pred, gt)`: `np.mean((pred - gt) ** 2)` over an
`(N, D)` array, i.e. the mean of all squared entry-wise differences. -/
def mse_fn (pred gt : List (List ℚ)) : ℚ :=
  let sq := (pred.zip gt).flatMap (fun r => (r.1.zip r.2).map (fun p => (p.1 - p.2) ^ 2))
  (sq.sum) / (sq.length : ℚ)

/-! ### Validation-set splitter (`src/utils.py` lines 138–164)

`np.random.shuffle` mutates its argument in place; the arrays live in the
function body are therefore threaded as an explicit record, and the
function returns both the final array states of the caller-supplied
arrays and the four result arrays. -/

/-- The numpy arrays visible in the body of `create_validation_set`:
the two caller-supplied arrays and the internally created index array. -/
structure SplitArrays where
  data : List (List ℚ)
  labels : List ℕ
  all_indices : List ℕ

/-- Embedding of `create_validation_set(data, labels, split_ratio)`.
`sh` is the permutation applied by the single `np.random.shuffle` call
(it mutates only `all_indices`, the freshly created `np.arange(0, N)`).
`int(split_ratio * N)` truncates toward zero, which for the nonnegative
product is the floor.  Fancy indexing `data[indices]` yields fresh copy
arrays; slicing `all_indices[:n]` / `all_indices[n:]` is embedded by
`take` / `drop`.  The first component of the result is the final state of
the arrays; the second is the returned 4-tuple. -/
def create_validation_set (sh : List ℕ → List ℕ) (data : List (List ℚ))
    (labels : List ℕ) (split_ratio : ℚ) :
    SplitArrays × (List (List ℚ) × List ℕ × List (List ℚ) × List ℕ) :=
  let N := data.length
  let s0 : SplitArrays := ⟨data, labels, List.range N⟩
  let s1 : SplitArrays := { s0 with all_indices := sh s0.all_indices }
  let validation_set_nb_elements := (⌊split_ratio * (N : ℚ)⌋).toNat
  let validation_set_indices := s1.all_indices.take validation_set_nb_elements
  let train_set_indices := s1.all_indices.drop validation_set_nb_elements
  let X_new_train := train_set_indices.map (fun i => s1.data.getD i [])
  let Y_new_train := train_set_indices.map (fun i => s1.labels.getD i 0)
  let X_new_test := validation_set_indices.map (fun i => s1.data.getD i [])
  let Y_new_test := validation_set_indices.map (fun i => s1.labels.getD i 0)
  (s1, (X_new_train, Y_new_train, X_new_test, Y_new_test))

/-! ### KNN predictor

`src/methods/knn.py` is imported by `src/utils.py` and `main.py` but is
not among the provided sources, so the predictor is modelled from the
specification. -/

/-- Squared Euclidean distance between two feature rows.  The spec's
`predict` ranks training rows by Euclidean distance; the square root is
monotone, so ranking by the squared distance selects the same neighbors
(kept squared to stay in exact rational arithmetic). -/
def sqdist (q x : List ℚ) : ℚ :=
  ((q.zip x).map (fun p => (p.1 - p.2) ^ 2)).sum

/-- Insert a (distance, index) pair into a list sorted by distance, with
ties broken by the original training-row index (the spec's "ties broken
arbitrarily by original index order — whatever stable order the distance
computation yields"). -/
def insertByDist (p : ℚ × ℕ) : List (ℚ × ℕ) → List (ℚ × ℕ)
  | [] => [p]
  | q :: rest =>
    if p.1 < q.1 ∨ (p.1 = q.1 ∧ p.2 ≤ q.2) then p :: q :: rest
    else q :: insertByDist p rest

/-- Sort (distance, index) pairs by distance then index. -/
def sortByDist : List (ℚ × ℕ) → List (ℚ × ℕ)
  | [] => []
  | p :: rest => insertByDist p (sortByDist rest)

/-- Modelled from the spec: `src/methods/knn.py` (class `KNN`) is missing
from the provided sources.  Spec §4.4 `predict`: "for each query row in Q,
compute Euclidean distance to every retained training row, select the k
rows with smallest distance (ties broken ... by original index order)".
This returns the indices of those k training rows for one query row. -/
def knn_neighbors (Xtr : List (List ℚ)) (k : ℕ) (q : List ℚ) : List ℕ :=
  (((sortByDist ((List.range Xtr.length).map
      (fun i => (sqdist q (Xtr.getD i []), i)))).take k).map (fun p => p.2))

/-- Entry-wise sum of two equal-length rows. -/
def vadd (a b : List ℚ) : List ℚ :=
  (a.zip b).map (fun p => p.1 + p.2)

/-- Arithmetic mean of a nonempty list of equal-length rows. -/
def meanRows : List (List ℚ) → List ℚ
  | [] => []
  | r :: rs => (rs.foldl vadd r).map (fun x => x / ((rs.length + 1 : ℕ) : ℚ))

/-- Modelled from the spec: `src/methods/knn.py` is missing from the
provided sources.  Spec §4.4, regression mode: "predicted value =
arithmetic mean of the k neighbors' label vectors".  Prediction for one
query row; `fit` retains `Xtr`/`Ytr` verbatim, so the trained state is
just the two arrays passed here. -/
def knn_predict_reg (Xtr : List (List ℚ)) (Ytr : List (List ℚ)) (k : ℕ)
    (q : List ℚ) : List ℚ :=
  meanRows ((knn_neighbors Xtr k q).map (fun i => Ytr.getD i []))

/-- Modelled from the spec: `src/methods/knn.py` is missing from the
provided sources.  Spec §4.4, classification mode: "predicted label =
most frequent class among the k neighbors' labels, ties broken by lowest
class index".  The scan over the sorted distinct labels only replaces the
incumbent on a strictly larger count, so the lowest class among tied
counts wins. -/
def knn_predict_cls (Xtr : List (List ℚ)) (Ytr : List ℕ) (k : ℕ)
    (q : List ℚ) : ℕ :=
  let nl := (knn_neighbors Xtr k q).map (fun i => Ytr.getD i 0)
  let cands := npUnique nl
  cands.foldl (fun best v => if nl.count best < nl.count v then v else best)
    (cands.headD 0)

/-! ### K-fold cross-validation (`src/utils.py` lines 168–227) -/

/-- Embedding of the per-fold validation indices of
`KFold_cross_validation_KNN`:
`val_ind = all_indices[fold_ind * split_size : (fold_ind + 1) * split_size]`
(Python slicing clamps at the array length, as `drop`/`take` do). -/
def val_indices (all_indices : List ℕ) (split_size fold_ind : ℕ) : List ℕ :=
  (all_indices.drop (fold_ind * split_size)).take split_size

/-- The (validation, training) index pairs produced by one call of
`KFold_cross_validation_KNN`: the single shuffled index array
`σ s (np.arange N)` is shared by all `K` folds; fold `f` takes the `f`-th
contiguous block of `split_size = N / K` as validation indices and
`np.setdiff1d(all_indices, val_ind)` as training indices. -/
def KFold_partition (σ : ℕ → List ℕ → List ℕ) (s N K : ℕ) :
    List (List ℕ × List ℕ) :=
  let all_indices := σ s (List.range N)
  let split_size := N / K
  (List.range K).map (fun fold_ind =>
    let v := val_indices all_indices split_size fold_ind
    (v, setdiff1d all_indices v))

/-- Embedding of `KFold_cross_validation_KNN(X, Y, K, k, M, T)` in
regression mode (`T ≠ "breed_identifying"`, `M = "knn"`, the only model
the source instantiates): one `np.random.shuffle` call (advancing the
random counter by one), then for each fold fit the KNN regressor on the
training rows and record the validation MSE; the result is the fold
average `np.sum(accuracies)/len(accuracies)` paired with the advanced
random counter. -/
def KFold_cross_validation_KNN_reg (σ : ℕ → List ℕ → List ℕ) (s : ℕ)
    (X Y : List (List ℚ)) (K k : ℕ) : ℚ × ℕ :=
  let accuracies := (KFold_partition σ s X.length K).map (fun fp =>
    let X_train_fold := fp.2.map (fun i => X.getD i [])
    let Y_train_fold := fp.2.map (fun i => Y.getD i [])
    let X_val_fold := fp.1.map (fun i => X.getD i [])
    let Y_val_fold := fp.1.map (fun i => Y.getD i [])
    mse_fn (X_val_fold.map (knn_predict_reg X_train_fold Y_train_fold k)) Y_val_fold)
  (accuracies.sum / (accuracies.length : ℚ), s + 1)

/-- Embedding of `KFold_cross_validation_KNN(X, Y, K, k, M, T)` in
classification mode (`T = "breed_identifying"`, `M = "knn"`): as in the
regression embedding, but each fold records the (accuracy, macro-F1) pair
and the function returns the pair of fold averages. -/
def KFold_cross_validation_KNN_cls (σ : ℕ → List ℕ → List ℕ) (s : ℕ)
    (X : List (List ℚ)) (Y : List ℕ) (K k : ℕ) : (ℚ × ℚ) × ℕ :=
  let perFold := (KFold_partition σ s X.length K).map (fun fp =>
    let X_train_fold := fp.2.map (fun i => X.getD i [])
    let Y_train_fold := fp.2.map (fun i => Y.getD i 0)
    let X_val_fold := fp.1.map (fun i => X.getD i [])
    let Y_val_fold := fp.1.map (fun i => Y.getD i 0)
    let Y_val_fold_pred := X_val_fold.map (knn_predict_cls X_train_fold Y_train_fold k)
    (accuracy_fn Y_val_fold_pred Y_val_fold, macrof1_fn Y_val_fold_pred Y_val_fold))
  let accuracies := perFold.map (fun p => p.1)
  let f1_score := perFold.map (fun p => p.2)
  ((accuracies.sum / (accuracies.length : ℚ),
    f1_score.sum / (f1_score.length : ℚ)), s + 1)

/-- Embedding of `run_cv_for_hyperparam(X, Y, K, k_list, M, T)` in
regression mode: evaluate `KFold_cross_validation_KNN` for each candidate
in `k_list` order (each call advancing the random counter), then
`max = np.min(model_performance)`,
`max_occurences_indices = np.where(model_performance == max)[0]`,
`best_k = max_occurences_indices[-1] + 1`.
Result: `(best_k, max, model_performance, final random counter)`. -/
def run_cv_for_hyperparam_reg (σ : ℕ → List ℕ → List ℕ) (s : ℕ)
    (X Y : List (List ℚ)) (K : ℕ) (k_list : List ℕ) :
    ℕ × ℚ × List ℚ × ℕ :=
  let pr := k_list.foldl (fun (acc : List ℚ × ℕ) k =>
    let r := KFold_cross_validation_KNN_reg σ acc.2 X Y K k
    (acc.1 ++ [r.1], r.2)) ([], s)
  let m := npMin pr.1
  let max_occurences_indices := npWhereEqIdx pr.1 m
  (max_occurences_indices.getLastD 0 + 1, m, pr.1, pr.2)

/-- Embedding of `run_cv_for_hyperparam(X, Y, K, k_list, M, T)` in
classification mode: `model_performance` is a list of (accuracy, F1)
pairs, so `np.max(model_performance)` maximizes over BOTH components of
all pairs and `np.where(model_performance == max)[0]` lists the row
indices of matching entries; `best_k = max_occurences_indices[-1] + 1`. -/
def run_cv_for_hyperparam_cls (σ : ℕ → List ℕ → List ℕ) (s : ℕ)
    (X : List (List ℚ)) (Y : List ℕ) (K : ℕ) (k_list : List ℕ) :
    ℕ × ℚ × List (ℚ × ℚ) × ℕ :=
  let pr := k_list.foldl (fun (acc : List (ℚ × ℚ) × ℕ) k =>
    let r := KFold_cross_validation_KNN_cls σ acc.2 X Y K k
    (acc.1 ++ [r.1], r.2)) ([], s)
  let m := npMaxPairs pr.1
  let max_occurences_indices := npWhereEqRows pr.1 m
  (max_occurences_indices.getLastD 0 + 1, m, pr.1, pr.2)

/-! ### Closed-form linear/ridge regression
(`src/methods/linear_regression.py`) -/

/-- Embedding of `np.linalg.inv`: the exact inverse of a square rational
matrix, or `none` when the matrix is singular (`np.linalg.inv` raises
`LinAlgError` on a singular matrix). -/
def npLinalgInv {n : ℕ} (A : Matrix (Fin n) (Fin n) ℚ) :
    Option (Matrix (Fin n) (Fin n) ℚ) :=
  if A.det = 0 then none else some (A.det⁻¹ • A.adjugate)

/-- State of a `LinearRegression` object: `self.weights` (initialized to
`None` in `__init__`, set by `fit`) and `self.lmda`. -/
structure LinearRegressionState (D M : ℕ) where
  weights : Option (Matrix (Fin D) (Fin M) ℚ)
  lmda : ℚ

/-- Embedding of `LinearRegression.predict(test_data)`:
`test_data @ self.weights` (`none` embeds the `TypeError` of multiplying
by the unset `self.weights = None`). -/
def LinearRegression_predict {N D M : ℕ} (self : LinearRegressionState D M)
    (test_data : Matrix (Fin N) (Fin D) ℚ) :
    Option (Matrix (Fin N) (Fin M) ℚ) :=
  self.weights.map (fun w => test_data * w)

/-- Embedding of `LinearRegression.fit(training_data, training_labels)`:
`self.weights = (inv(X.T @ X + lmda * eye(D)) @ X.T) @ y`, then
`return self.predict(training_data)`.  The result pairs the updated
object state with the returned predictions; `none` embeds the
`LinAlgError` raised on a singular matrix. -/
def LinearRegression_fit {N D M : ℕ} (self : LinearRegressionState D M)
    (training_data : Matrix (Fin N) (Fin D) ℚ)
    (training_labels : Matrix (Fin N) (Fin M) ℚ) :
    Option (LinearRegressionState D M × Matrix (Fin N) (Fin M) ℚ) :=
  (npLinalgInv (training_data.transpose * training_data +
      self.lmda • (1 : Matrix (Fin D) (Fin D) ℚ))).bind (fun inv =>
    let w := (inv * training_data.transpose) * training_labels
    let self' : LinearRegressionState D M := { self with weights := some w }
    (LinearRegression_predict self' training_data).map (fun preds => (self', preds)))

/-! ### General list lemmas -/

theorem getD_mem {α : Type} (l : List α) (i : ℕ) (d : α) (h : i < l.length) :
    l.getD i d ∈ l := by
  rw [List.getD_eq_getElem l d h]
  exact List.getElem_mem h

theorem getLastD_mem {α : Type} : ∀ (l : List α) (d : α), l ≠ [] → l.getLastD d ∈ l
  | [], _, h => absurd rfl h
  | x :: xs, d, _ => by
    rw [List.getLastD_cons]
    cases hxs : xs with
    | nil => simp
    | cons y ys =>
      exact List.mem_cons_of_mem x (by rw [← hxs]; exact getLastD_mem xs x (by simp [hxs]))

theorem getLastD_append {α : Type} (A B : List α) (d : α) (h : B ≠ []) :
    (A ++ B).getLastD d = B.getLastD d := by
  rw [List.getLastD_eq_getLast?, List.getLastD_eq_getLast?,
    List.getLast?_append_of_ne_nil A h]

theorem foldl_min_le_init (l : List ℚ) : ∀ a : ℚ, l.foldl min a ≤ a := by
  induction l with
  | nil => intro a; exact le_refl a
  | cons y ys ih =>
    intro a
    calc (y :: ys).foldl min a = ys.foldl min (min a y) := rfl
    _ ≤ min a y := ih (min a y)
    _ ≤ a := min_le_left a y

theorem foldl_min_le_mem (l : List ℚ) : ∀ (a x : ℚ), x ∈ l → l.foldl min a ≤ x := by
  induction l with
  | nil => intro a x hx; cases hx
  | cons y ys ih =>
    intro a x hx
    rcases List.mem_cons.mp hx with h | h
    · subst h
      calc ys.foldl min (min a x) ≤ min a x := foldl_min_le_init ys (min a x)
      _ ≤ x := min_le_right a x
    · exact ih (min a y) x h

theorem foldl_min_eq_or_mem (l : List ℚ) : ∀ a : ℚ, l.foldl min a = a ∨ l.foldl min a ∈ l := by
  induction l with
  | nil => intro a; exact Or.inl rfl
  | cons y ys ih =>
    intro a
    rcases ih (min a y) with h | h
    · rcases min_choice a y with hm | hm
      · exact Or.inl (by rw [List.foldl_cons, h, hm])
      · exact Or.inr (by rw [List.foldl_cons, h, hm]; exact List.mem_cons_self y ys)
    · exact Or.inr (List.mem_cons_of_mem y h)

theorem npMin_le (l : List ℚ) (x : ℚ) (hx : x ∈ l) : npMin l ≤ x := by
  cases l with
  | nil => cases hx
  | cons y ys =>
    rcases List.mem_cons.mp hx with h | h
    · subst h; exact foldl_min_le_init ys x
    · exact foldl_min_le_mem ys y x h

theorem npMin_mem (l : List ℚ) (h : l ≠ []) : npMin l ∈ l := by
  cases l with
  | nil => exact absurd rfl h
  | cons y ys =>
    rcases foldl_min_eq_or_mem ys y with h' | h'
    · rw [npMin, h']; exact List.mem_cons_self y ys
    · exact List.mem_cons_of_mem y h'

theorem foldl_max_init_le (l : List ℚ) : ∀ a : ℚ, a ≤ l.foldl max a := by
  induction l with
  | nil => intro a; exact le_refl a
  | cons y ys ih =>
    intro a
    calc a ≤ max a y := le_max_left a y
    _ ≤ ys.foldl max (max a y) := ih (max a y)

theorem foldl_max_mem_le (l : List ℚ) : ∀ (a x : ℚ), x ∈ l → x ≤ l.foldl max a := by
  induction l with
  | nil => intro a x hx; cases hx
  | cons y ys ih =>
    intro a x hx
    rcases List.mem_cons.mp hx with h | h
    · subst h
      calc x ≤ max a x := le_max_right a x
      _ ≤ ys.foldl max (max a x) := foldl_max_init_le ys (max a x)
    · exact ih (max a y) x h

theorem foldl_max_eq_or_mem (l : List ℚ) : ∀ a : ℚ, l.foldl max a = a ∨ l.foldl max a ∈ l := by
  induction l with
  | nil => intro a; exact Or.inl rfl
  | cons y ys ih =>
    intro a
    rcases ih (max a y) with h | h
    · rcases max_choice a y with hm | hm
      · exact Or.inl (by rw [List.foldl_cons, h, hm])
      · exact Or.inr (by rw [List.foldl_cons, h, hm]; exact List.mem_cons_self y ys)
    · exact Or.inr (List.mem_cons_of_mem y h)

theorem npMax_ge (l : List ℚ) (x : ℚ) (hx : x ∈ l) : x ≤ npMax l := by
  cases l with
  | nil => cases hx
  | cons y ys =>
    rcases List.mem_cons.mp hx with h | h
    · subst h; exact foldl_max_init_le ys x
    · exact foldl_max_mem_le ys y x h

theorem npMax_mem (l : List ℚ) (h : l ≠ []) : npMax l ∈ l := by
  cases l with
  | nil => exact absurd rfl h
  | cons y ys =>
    rcases foldl_max_eq_or_mem ys y with h' | h'
    · rw [npMax, h']; exact List.mem_cons_self y ys
    · exact List.mem_cons_of_mem y h'

theorem filter_range_getLastD (p : ℕ → Bool) :
    ∀ n : ℕ, (∃ i, i < n ∧ p i = true) →
      ((List.range n).filter p).getLastD 0 < n ∧
      p (((List.range n).filter p).getLastD 0) = true ∧
      ∀ q, ((List.range n).filter p).getLastD 0 < q → q < n → p q = false := by
  intro n
  induction n with
  | zero => rintro ⟨i, hi, -⟩; omega
  | succ n ih =>
    intro h
    rw [List.range_succ, List.filter_append]
    by_cases hp : p n = true
    · have h1 : List.filter p [n] = [n] := by simp [hp]
      rw [h1, getLastD_append _ _ _ (by simp)]
      refine ⟨by simp [List.getLastD], by simpa [List.getLastD] using hp, ?_⟩
      intro q hq hq'
      simp [List.getLastD] at hq
      omega
    · have h1 : List.filter p [n] = [] := by
        simp only [List.filter, Bool.not_eq_true] at hp ⊢
        simp [hp]
      rw [h1, List.append_nil]
      have h' : ∃ i, i < n ∧ p i = true := by
        obtain ⟨i, hi, hpi⟩ := h
        refine ⟨i, ?_, hpi⟩
        rcases Nat.lt_succ_iff_lt_or_eq.mp hi with h2 | h2
        · exact h2
        · subst h2; exact absurd hpi hp
      obtain ⟨h1', h2', h3'⟩ := ih h'
      refine ⟨by omega, h2', ?_⟩
      intro q hq hq'
      by_cases hqn : q = n
      · subst hqn
        exact Bool.not_eq_true (p q) |>.mp hp
      · exact h3' q hq (by omega)

theorem flatMap_range_getLastD (e : ℕ → List ℕ) (he : ∀ i, ∀ x ∈ e i, x = i) :
    ∀ n : ℕ, (∃ i, i < n ∧ e i ≠ []) →
      ((List.range n).flatMap e).getLastD 0 < n ∧
      e (((List.range n).flatMap e).getLastD 0) ≠ [] ∧
      ∀ q, ((List.range n).flatMap e).getLastD 0 < q → q < n → e q = [] := by
  intro n
  induction n with
  | zero => rintro ⟨i, hi, -⟩; omega
  | succ n ih =>
    intro h
    rw [List.range_succ, List.flatMap_append]
    have hsingle : [n].flatMap e = e n := by simp
    rw [hsingle]
    by_cases hn : e n = []
    · rw [hn, List.append_nil]
      have h' : ∃ i, i < n ∧ e i ≠ [] := by
        obtain ⟨i, hi, hei⟩ := h
        refine ⟨i, ?_, hei⟩
        rcases Nat.lt_succ_iff_lt_or_eq.mp hi with h2 | h2
        · exact h2
        · subst h2; exact absurd hn hei
      obtain ⟨h1', h2', h3'⟩ := ih h'
      refine ⟨by omega, h2', ?_⟩
      intro q hq hq'
      by_cases hqn : q = n
      · subst hqn; exact hn
      · exact h3' q hq (by omega)
    · rw [getLastD_append _ _ _ hn]
      have hmem := getLastD_mem (e n) 0 hn
      have heq := he n _ hmem
      rw [heq]
      exact ⟨Nat.lt_succ_self n, hn, fun q hq hq' => by omega⟩

/-! ### Permutation and fold-partition lemmas -/

theorem foldr_max_perm {l₁ l₂ : List ℕ} (h : l₁.Perm l₂) (a : ℕ) :
    l₁.foldr max a = l₂.foldr max a := by
  induction h with
  | nil => rfl
  | cons x _ ih => simp only [List.foldr_cons, ih]
  | swap x y l => simp only [List.foldr_cons]; exact max_left_comm y x _
  | trans _ _ ih₁ ih₂ => rw [ih₁, ih₂]

theorem foldr_max_range : ∀ (n : ℕ) (a : ℕ), (List.range (n + 1)).foldr max a = max a n := by
  intro n
  induction n with
  | zero => intro a; simp [List.range_succ]
  | succ n ih =>
    intro a
    rw [List.range_succ, List.foldr_append]
    have h1 : List.foldr max a [n + 1] = max (n + 1) a := by simp
    rw [h1, ih (max (n + 1) a)]
    omega

theorem setdiff1d_perm_range {perm : List ℕ} {N : ℕ} (h : perm.Perm (List.range N))
    (hN : 0 < N) (b : List ℕ) :
    setdiff1d perm b = (List.range N).filter (fun x => x ∉ b) := by
  unfold setdiff1d
  obtain ⟨m, rfl⟩ : ∃ m, N = m + 1 := ⟨N - 1, by omega⟩
  have hm : perm.foldr max 0 = m := by
    rw [foldr_max_perm h, foldr_max_range]; omega
  rw [hm]
  apply List.filter_congr
  intro x hx
  have hmem : x ∈ perm := h.mem_iff.mpr hx
  simp [hmem]

theorem val_indices_length {perm : List ℕ} {N K : ℕ} (hlen : perm.length = N)
    {f : ℕ} (hf : f < K) :
    (val_indices perm (N / K) f).length = N / K := by
  unfold val_indices
  rw [List.length_take, List.length_drop, hlen]
  have h1 : K * (N / K) ≤ N := by
    rw [mul_comm]; exact Nat.div_mul_le_self N K
  have h2 : (f + 1) * (N / K) ≤ K * (N / K) := Nat.mul_le_mul_right _ (by omega)
  rw [add_mul, one_mul] at h2
  omega

theorem take_drop_disjoint {perm : List ℕ} (hnd : perm.Nodup) (a s m : ℕ)
    (hm : a + s ≤ m) :
    List.Disjoint ((perm.drop a).take s) (perm.drop m) := by
  intro x hx hx'
  have hA : (perm.drop a).Nodup := (List.drop_sublist a perm).nodup hnd
  have hnd2 : ((perm.drop a).take s ++ (perm.drop a).drop s).Nodup := by
    rw [List.take_append_drop]; exact hA
  have hdisj := (List.nodup_append.mp hnd2).2.2
  have hdd : perm.drop m = ((perm.drop a).drop s).drop (m - (a + s)) := by
    rw [List.drop_drop, List.drop_drop]
    congr 1
    omega
  exact hdisj hx (by rw [hdd] at hx'; exact List.drop_subset _ _ hx')

theorem val_indices_disjoint {perm : List ℕ} (hnd : perm.Nodup) (s : ℕ) {f g : ℕ}
    (hfg : f < g) :
    List.Disjoint (val_indices perm s f) (val_indices perm s g) := by
  intro x hx hx'
  have h1 : List.Disjoint ((perm.drop (f * s)).take s) (perm.drop (g * s)) := by
    apply take_drop_disjoint hnd
    have h2 : (f + 1) * s ≤ g * s := Nat.mul_le_mul_right _ (by omega)
    rw [add_mul, one_mul] at h2
    omega
  exact h1 hx (List.take_subset _ _ hx')

theorem val_indices_remainder_disjoint {perm : List ℕ} (hnd : perm.Nodup) {s K f : ℕ}
    (hf : f < K) :
    List.Disjoint (val_indices perm s f) (perm.drop (K * s)) := by
  apply take_drop_disjoint hnd
  have h2 : (f + 1) * s ≤ K * s := Nat.mul_le_mul_right _ (by omega)
  rw [add_mul, one_mul] at h2
  omega

theorem length_filter_not_mem {v : List ℕ} {N : ℕ} (hv : v.Nodup)
    (hsub : ∀ x ∈ v, x < N) :
    ((List.range N).filter (fun x => x ∉ v)).length = N - v.length := by
  have hperm : ((List.range N).filter (fun x => x ∈ v)).Perm v := by
    apply List.perm_of_nodup_nodup_toFinset_eq (List.Nodup.filter _ (List.nodup_range N)) hv
    apply Finset.ext
    intro x
    simp only [List.mem_toFinset, List.mem_filter, List.mem_range, decide_eq_true_eq]
    constructor
    · rintro ⟨-, h⟩; exact h
    · intro h; exact ⟨hsub x h, h⟩
  have hlen1 : ((List.range N).filter (fun x => x ∈ v)).length = v.length := hperm.length_eq
  have hsplit := List.length_eq_countP_add_countP (fun x => decide (x ∈ v)) (List.range N)
  rw [List.countP_eq_length_filter, List.countP_eq_length_filter] at hsplit
  have hcongr : (List.range N).filter (fun a => decide (¬ decide (a ∈ v) = true)) =
      (List.range N).filter (fun x => x ∉ v) := by
    apply List.filter_congr
    intro x _
    simp
  rw [hcongr] at hsplit
  rw [List.length_range] at hsplit
  omega

/-! ### Claim C4 -/

/-- Claim C4: for every `K ≥ 2` and `N ≥ K`, the fold partition built by
`KFold_cross_validation_KNN` from one permutation of the `N` indices
consists of `K` contiguous validation blocks of size `N / K` that are
pairwise disjoint with union size `K * (N / K) ≤ N`; each fold's training
block is all indices minus that fold's validation block, so it has size
`N - N / K`, and the remainder indices (the permuted tail beyond position
`K * (N / K)`) appear in no validation block and in every training
block. -/
theorem claim4_fold_partition_invariants
    (σ : ℕ → List ℕ → List ℕ) (s N K : ℕ) (hK : 2 ≤ K) (hKN : K ≤ N)
    (hperm : (σ s (List.range N)).Perm (List.range N)) :
    (KFold_partition σ s N K).length = K ∧
    (∀ fp ∈ KFold_partition σ s N K,
      fp.1.length = N / K ∧
      fp.2.length = N - N / K ∧
      (∀ x, x ∈ fp.2 ↔ x ∈ List.range N ∧ x ∉ fp.1)) ∧
    (∀ f g, f < K → g < K → f ≠ g →
      List.Disjoint (val_indices (σ s (List.range N)) (N / K) f)
        (val_indices (σ s (List.range N)) (N / K) g)) ∧
    K * (N / K) ≤ N ∧
    (∀ x ∈ (σ s (List.range N)).drop (K * (N / K)),
      ∀ fp ∈ KFold_partition σ s N K, x ∉ fp.1 ∧ x ∈ fp.2) := by
  have hN : 0 < N := by omega
  have hlen : (σ s (List.range N)).length = N := by
    rw [hperm.length_eq, List.length_range]
  have hnd : (σ s (List.range N)).Nodup :=
    hperm.nodup_iff.mpr (List.nodup_range N)
  have hval_nodup : ∀ f : ℕ, (val_indices (σ s (List.range N)) (N / K) f).Nodup := by
    intro f
    exact List.Sublist.nodup
      ((List.take_sublist _ _).trans (List.drop_sublist _ _)) hnd
  have hval_sub : ∀ f : ℕ, ∀ x ∈ val_indices (σ s (List.range N)) (N / K) f, x < N := by
    intro f x hx
    have : x ∈ σ s (List.range N) :=
      (List.take_subset _ _).trans (List.drop_subset _ _) hx
    exact List.mem_range.mp (hperm.mem_iff.mp this)
  have hsd : ∀ f : ℕ,
      setdiff1d (σ s (List.range N)) (val_indices (σ s (List.range N)) (N / K) f) =
      (List.range N).filter
        (fun x => x ∉ val_indices (σ s (List.range N)) (N / K) f) :=
    fun f => setdiff1d_perm_range hperm hN _
  have hmem_part : ∀ fp ∈ KFold_partition σ s N K, ∃ f, f < K ∧
      fp = (val_indices (σ s (List.range N)) (N / K) f,
        setdiff1d (σ s (List.range N)) (val_indices (σ s (List.range N)) (N / K) f)) := by
    intro fp hfp
    simp only [KFold_partition, List.mem_map, List.mem_range] at hfp
    obtain ⟨f, hf, heq⟩ := hfp
    exact ⟨f, hf, heq.symm⟩
  refine ⟨?_, ?_, ?_, ?_, ?_⟩
  · simp [KFold_partition]
  · intro fp hfp
    obtain ⟨f, hf, rfl⟩ := hmem_part fp hfp
    refine ⟨val_indices_length hlen hf, ?_, ?_⟩
    · rw [hsd f, length_filter_not_mem (hval_nodup f) (hval_sub f),
        val_indices_length hlen hf]
    · intro x
      rw [hsd f]
      simp [List.mem_filter]
  · intro f g hf hg hne
    rcases Nat.lt_or_ge f g with h | h
    · exact val_indices_disjoint hnd _ h
    · have hgf : g < f := by omega
      intro x hx hx'
      exact val_indices_disjoint hnd _ hgf hx' hx
  · rw [mul_comm]
    exact Nat.div_mul_le_self N K
  · intro x hx fp hfp
    obtain ⟨f, hf, rfl⟩ := hmem_part fp hfp
    have hnotval : x ∉ val_indices (σ s (List.range N)) (N / K) f := by
      intro hxv
      exact val_indices_remainder_disjoint hnd hf hxv hx
    refine ⟨hnotval, ?_⟩
    rw [hsd f]
    have hxN : x ∈ List.range N := hperm.mem_iff.mp (List.drop_subset _ _ hx)
    simp [List.mem_filter, hxN, hnotval]

/-- Witness for C4 at `N = 5`, `K = 2`, `σ` the reversal shuffle. -/
theorem claim4_witness :
    (2 ≤ 2 ∧ 2 ≤ 5 ∧
      ((fun (_ : ℕ) (l : List ℕ) => l.reverse) 0 (List.range 5)).Perm (List.range 5)) ∧
    ((KFold_partition (fun (_ : ℕ) (l : List ℕ) => l.reverse) 0 5 2).length = 2 ∧
    (∀ fp ∈ KFold_partition (fun (_ : ℕ) (l : List ℕ) => l.reverse) 0 5 2,
      fp.1.length = 5 / 2 ∧
      fp.2.length = 5 - 5 / 2 ∧
      (∀ x, x ∈ fp.2 ↔ x ∈ List.range 5 ∧ x ∉ fp.1)) ∧
    (∀ f g, f < 2 → g < 2 → f ≠ g →
      List.Disjoint
        (val_indices ((fun (_ : ℕ) (l : List ℕ) => l.reverse) 0 (List.range 5)) (5 / 2) f)
        (val_indices ((fun (_ : ℕ) (l : List ℕ) => l.reverse) 0 (List.range 5)) (5 / 2) g)) ∧
    2 * (5 / 2) ≤ 5 ∧
    (∀ x ∈ ((fun (_ : ℕ) (l : List ℕ) => l.reverse) 0 (List.range 5)).drop (2 * (5 / 2)),
      ∀ fp ∈ KFold_partition (fun (_ : ℕ) (l : List ℕ) => l.reverse) 0 5 2,
      x ∉ fp.1 ∧ x ∈ fp.2)) :=
  ⟨⟨le_refl 2, by omega, by decide⟩,
    claim4_fold_partition_invariants (fun (_ : ℕ) (l : List ℕ) => l.reverse) 0 5 2
      (le_refl 2) (by omega) (by decide)⟩

/-! ### Characterization of the sweep loop in `run_cv_for_hyperparam` -/

theorem run_cv_reg_foldl (σ : ℕ → List ℕ → List ℕ) (X Y : List (List ℚ)) (K : ℕ)
    (ks : List ℕ) : ∀ (acc : List ℚ) (s : ℕ),
    ks.foldl (fun (a : List ℚ × ℕ) k =>
      let r := KFold_cross_validation_KNN_reg σ a.2 X Y K k
      (a.1 ++ [r.1], r.2)) (acc, s) =
    (acc ++ (List.range ks.length).map
        (fun i => (KFold_cross_validation_KNN_reg σ (s + i) X Y K (ks.getD i 0)).1),
      s + ks.length) := by
  induction ks using List.reverseRecOn with
  | nil => intro acc s; simp
  | append_singleton rest k ih =>
    intro acc s
    rw [List.foldl_append, ih acc s, List.foldl_cons, List.foldl_nil]
    have hc : (KFold_cross_validation_KNN_reg σ (s + rest.length) X Y K k).2 =
        s + rest.length + 1 := rfl
    simp only [List.length_append, List.length_singleton, List.range_succ,
      List.map_append, List.map_cons, List.map_nil, hc]
    rw [Prod.mk.injEq]
    refine ⟨?_, by omega⟩
    rw [List.append_assoc]
    congr 1
    congr 1
    · apply List.map_congr_left
      intro i hi
      rw [List.getD_append rest [k] 0 i (List.mem_range.mp hi)]
    · congr 2
      rw [List.getD_append_right rest [k] 0 rest.length (le_refl rest.length)]
      simp

theorem run_cv_cls_foldl (σ : ℕ → List ℕ → List ℕ) (X : List (List ℚ)) (Y : List ℕ)
    (K : ℕ) (ks : List ℕ) : ∀ (acc : List (ℚ × ℚ)) (s : ℕ),
    ks.foldl (fun (a : List (ℚ × ℚ) × ℕ) k =>
      let r := KFold_cross_validation_KNN_cls σ a.2 X Y K k
      (a.1 ++ [r.1], r.2)) (acc, s) =
    (acc ++ (List.range ks.length).map
        (fun i => (KFold_cross_validation_KNN_cls σ (s + i) X Y K (ks.getD i 0)).1),
      s + ks.length) := by
  induction ks using List.reverseRecOn with
  | nil => intro acc s; simp
  | append_singleton rest k ih =>
    intro acc s
    rw [List.foldl_append, ih acc s, List.foldl_cons, List.foldl_nil]
    have hc : (KFold_cross_validation_KNN_cls σ (s + rest.length) X Y K k).2 =
        s + rest.length + 1 := rfl
    simp only [List.length_append, List.length_singleton, List.range_succ,
      List.map_append, List.map_cons, List.map_nil, hc]
    rw [Prod.mk.injEq]
    refine ⟨?_, by omega⟩
    rw [List.append_assoc]
    congr 1
    congr 1
    · apply List.map_congr_left
      intro i hi
      rw [List.getD_append rest [k] 0 i (List.mem_range.mp hi)]
    · congr 2
      rw [List.getD_append_right rest [k] 0 rest.length (le_refl rest.length)]
      simp

theorem getD_map_range {α : Type} (g : ℕ → α) {n i : ℕ} (hi : i < n) (d : α) :
    ((List.range n).map g).getD i d = g i := by
  rw [List.getD_eq_getElem _ _ (by simpa using hi)]
  simp

/-! ### Claims C2 and C3 -/

/-- Claim C2 (counterexample): the claim asserts that one permutation of
the sample indices is generated once per sweep and shared across all
candidate k values.  In the source, `np.random.shuffle` is called inside
`KFold_cross_validation_KNN`, which `run_cv_for_hyperparam` invokes once
per candidate, so candidate `i` consumes the `(s+i)`-th output of the
random stream.  With a valid shuffle stream whose first two outputs are
the identity and the reversal, the fold partitions used by candidate 0
and candidate 1 (at `N = 4`, `K = 2`) differ. -/
theorem claim2_counterexample :
    ((fun (t : ℕ) (l : List ℕ) => if t = 0 then l else l.reverse) 0 (List.range 4)).Perm
      (List.range 4) ∧
    ((fun (t : ℕ) (l : List ℕ) => if t = 0 then l else l.reverse) 1 (List.range 4)).Perm
      (List.range 4) ∧
    KFold_partition (fun (t : ℕ) (l : List ℕ) => if t = 0 then l else l.reverse) 0 4 2 ≠
      KFold_partition (fun (t : ℕ) (l : List ℕ) => if t = 0 then l else l.reverse) 1 4 2 :=
  ⟨by decide, by decide, by decide⟩

/-- Claim C2 (amended): within one `KFold_cross_validation_KNN` call a
single permutation (one `np.random.shuffle`, i.e. one position of the
random stream) is shared by all `K` folds, but `run_cv_for_hyperparam`
makes one such call per candidate: the sweep advances the random counter
by exactly `|k_list|` (one fresh shuffle per candidate), and the
performance recorded for candidate `i` is the `KFold` result computed at
random counter `s + i` — the partition is re-randomized per candidate,
not fixed once per sweep.  Stated for both task modes. -/
theorem claim2_amended_one_shuffle_per_candidate
    (σ : ℕ → List ℕ → List ℕ) (s : ℕ) (X Y X' : List (List ℚ)) (Y' : List ℕ)
    (K : ℕ) (ks : List ℕ) (i : ℕ) (hi : i < ks.length) :
    (run_cv_for_hyperparam_reg σ s X Y K ks).2.2.2 = s + ks.length ∧
    (run_cv_for_hyperparam_reg σ s X Y K ks).2.2.1.getD i 0 =
      (KFold_cross_validation_KNN_reg σ (s + i) X Y K (ks.getD i 0)).1 ∧
    (run_cv_for_hyperparam_cls σ s X' Y' K ks).2.2.2 = s + ks.length ∧
    (run_cv_for_hyperparam_cls σ s X' Y' K ks).2.2.1.getD i (0, 0) =
      (KFold_cross_validation_KNN_cls σ (s + i) X' Y' K (ks.getD i 0)).1 := by
  have hreg := run_cv_reg_foldl σ X Y K ks [] s
  have hcls := run_cv_cls_foldl σ X' Y' K ks [] s
  have e1 : run_cv_for_hyperparam_reg σ s X Y K ks =
      (let P := (List.range ks.length).map
        (fun j => (KFold_cross_validation_KNN_reg σ (s + j) X Y K (ks.getD j 0)).1)
       ((npWhereEqIdx P (npMin P)).getLastD 0 + 1, npMin P, P, s + ks.length)) := by
    unfold run_cv_for_hyperparam_reg
    rw [hreg]
    simp
  have e2 : run_cv_for_hyperparam_cls σ s X' Y' K ks =
      (let P := (List.range ks.length).map
        (fun j => (KFold_cross_validation_KNN_cls σ (s + j) X' Y' K (ks.getD j 0)).1)
       ((npWhereEqRows P (npMaxPairs P)).getLastD 0 + 1, npMaxPairs P, P, s + ks.length)) := by
    unfold run_cv_for_hyperparam_cls
    rw [hcls]
    simp
  rw [e1, e2]
  exact ⟨rfl, getD_map_range _ hi 0, rfl, getD_map_range _ hi (0, 0)⟩

/-- Witness for C2 (amended) at a concrete sweep: two candidates,
`K = 2`, two samples, shuffle stream = identity then reversal. -/
theorem claim2_amended_witness :
    1 < ([1, 2] : List ℕ).length ∧
    ((run_cv_for_hyperparam_reg (fun (t : ℕ) (l : List ℕ) => if t = 0 then l else l.reverse)
        0 [[0], [1]] [[0], [1]] 2 [1, 2]).2.2.2 = 0 + ([1, 2] : List ℕ).length ∧
    (run_cv_for_hyperparam_reg (fun (t : ℕ) (l : List ℕ) => if t = 0 then l else l.reverse)
        0 [[0], [1]] [[0], [1]] 2 [1, 2]).2.2.1.getD 1 0 =
      (KFold_cross_validation_KNN_reg
        (fun (t : ℕ) (l : List ℕ) => if t = 0 then l else l.reverse)
        (0 + 1) [[0], [1]] [[0], [1]] 2 (([1, 2] : List ℕ).getD 1 0)).1 ∧
    (run_cv_for_hyperparam_cls (fun (t : ℕ) (l : List ℕ) => if t = 0 then l else l.reverse)
        0 [[0], [1]] [0, 1] 2 [1, 2]).2.2.2 = 0 + ([1, 2] : List ℕ).length ∧
    (run_cv_for_hyperparam_cls (fun (t : ℕ) (l : List ℕ) => if t = 0 then l else l.reverse)
        0 [[0], [1]] [0, 1] 2 [1, 2]).2.2.1.getD 1 (0, 0) =
      (KFold_cross_validation_KNN_cls
        (fun (t : ℕ) (l : List ℕ) => if t = 0 then l else l.reverse)
        (0 + 1) [[0], [1]] [0, 1] 2 (([1, 2] : List ℕ).getD 1 0)).1) :=
  ⟨by decide,
    claim2_amended_one_shuffle_per_candidate
      (fun (t : ℕ) (l : List ℕ) => if t = 0 then l else l.reverse)
      0 [[0], [1]] [[0], [1]] [[0], [1]] [0, 1] 2 [1, 2] 1 (by decide)⟩

/-- Claim C3: the spec requires an eager `InvalidConfiguration` failure
when `K > N`; the source has no such guard.  At `N = 2` samples and
`K = 3` folds, `split_size = 2 // 3 = 0` and `KFold_cross_validation_KNN`
silently builds three folds whose validation blocks are all empty (each
fold then trains on all samples and evaluates the metrics on empty
arrays, where `np.mean` yields NaN) instead of raising. -/
theorem claim3_no_guard_empty_blocks :
    (2 : ℕ) < 3 ∧
    KFold_partition (fun (_ : ℕ) (l : List ℕ) => l) 0 2 3 =
      [([], [0, 1]), ([], [0, 1]), ([], [0, 1])] ∧
    ∀ fp ∈ KFold_partition (fun (_ : ℕ) (l : List ℕ) => l) 0 2 3, fp.1 = [] :=
  ⟨by decide, by decide, by decide⟩

/-! ### Selection-step characterization (`np.min`/`np.max` + `np.where` + `[-1]`) -/

theorem npWhere_min_last (P : List ℚ) (hP : P ≠ []) :
    (npWhereEqIdx P (npMin P)).getLastD 0 < P.length ∧
    P.getD ((npWhereEqIdx P (npMin P)).getLastD 0) 0 = npMin P ∧
    (∀ q, (npWhereEqIdx P (npMin P)).getLastD 0 < q → q < P.length →
      P.getD q 0 ≠ npMin P) ∧
    (∀ q, q < P.length → npMin P ≤ P.getD q 0) := by
  have hm := npMin_mem P hP
  obtain ⟨j, hj, hPj⟩ := List.mem_iff_getElem.mp hm
  have hPj' : P.getD j 0 = npMin P := by
    rw [List.getD_eq_getElem _ _ hj]; exact hPj
  have hEx : ∃ i, i < P.length ∧ (decide (P.getD i 0 = npMin P)) = true :=
    ⟨j, hj, by rw [decide_eq_true_eq]; exact hPj'⟩
  obtain ⟨h1, h2, h3⟩ :=
    filter_range_getLastD (fun i => decide (P.getD i 0 = npMin P)) P.length hEx
  refine ⟨h1, of_decide_eq_true h2, ?_, ?_⟩
  · intro q hq hq' heq
    have hfalse := h3 q hq hq'
    rw [decide_eq_false_iff_not] at hfalse
    exact hfalse heq
  · intro q hq
    exact npMin_le P _ (getD_mem P q 0 hq)

theorem npWhere_max_pairs_last (P : List (ℚ × ℚ)) (hP : P ≠ []) :
    (npWhereEqRows P (npMaxPairs P)).getLastD 0 < P.length ∧
    ((P.getD ((npWhereEqRows P (npMaxPairs P)).getLastD 0) (0, 0)).1 = npMaxPairs P ∨
      (P.getD ((npWhereEqRows P (npMaxPairs P)).getLastD 0) (0, 0)).2 = npMaxPairs P) ∧
    (∀ q, (npWhereEqRows P (npMaxPairs P)).getLastD 0 < q → q < P.length →
      (P.getD q (0, 0)).1 ≠ npMaxPairs P ∧ (P.getD q (0, 0)).2 ≠ npMaxPairs P) ∧
    (∀ q, q < P.length →
      (P.getD q (0, 0)).1 ≤ npMaxPairs P ∧ (P.getD q (0, 0)).2 ≤ npMaxPairs P) := by
  have he : ∀ i, ∀ x ∈ (if (P.getD i (0, 0)).1 = npMaxPairs P then [i] else []) ++
      (if (P.getD i (0, 0)).2 = npMaxPairs P then [i] else []), x = i := by
    intro i x hx
    rcases List.mem_append.mp hx with h | h
    · split_ifs at h with hc
      · exact List.mem_singleton.mp h
      · simp at h
    · split_ifs at h with hc
      · exact List.mem_singleton.mp h
      · simp at h
  have hflat : P.flatMap (fun p => [p.1, p.2]) ≠ [] := by
    cases P with
    | nil => exact absurd rfl hP
    | cons a t => simp [List.flatMap_cons]
  have hm : npMaxPairs P ∈ P.flatMap (fun p => [p.1, p.2]) := npMax_mem _ hflat
  obtain ⟨pr, hpr, hin⟩ := List.mem_flatMap.mp hm
  have hin' : pr.1 = npMaxPairs P ∨ pr.2 = npMaxPairs P := by
    simp only [List.mem_cons, List.mem_singleton] at hin
    rcases hin with h | h
    · exact Or.inl h.symm
    · rcases h with h | h
      · exact Or.inr h.symm
      · simp at h
  obtain ⟨j, hj, hPj⟩ := List.mem_iff_getElem.mp hpr
  have hgd : P.getD j (0, 0) = pr := by
    rw [List.getD_eq_getElem _ _ hj]; exact hPj
  have hEx : ∃ i, i < P.length ∧
      ((if (P.getD i (0, 0)).1 = npMaxPairs P then [i] else []) ++
        (if (P.getD i (0, 0)).2 = npMaxPairs P then [i] else [])) ≠ [] := by
    refine ⟨j, hj, ?_⟩
    rw [hgd]
    rcases hin' with h | h
    · rw [if_pos h]
      simp
    · rw [if_pos h]
      by_cases hc : pr.1 = npMaxPairs P
      · rw [if_pos hc]; simp
      · rw [if_neg hc]; simp
  obtain ⟨h1, h2, h3⟩ := flatMap_range_getLastD _ he P.length hEx
  have hrw : ((List.range P.length).flatMap fun i =>
      (if (P.getD i (0, 0)).1 = npMaxPairs P then [i] else []) ++
        if (P.getD i (0, 0)).2 = npMaxPairs P then [i] else []) =
      npWhereEqRows P (npMaxPairs P) := rfl
  rw [hrw] at h1 h2 h3
  refine ⟨h1, ?_, ?_, ?_⟩
  · by_cases hc1 :
        (P.getD ((npWhereEqRows P (npMaxPairs P)).getLastD 0) (0, 0)).1 = npMaxPairs P
    · exact Or.inl hc1
    · by_cases hc2 :
          (P.getD ((npWhereEqRows P (npMaxPairs P)).getLastD 0) (0, 0)).2 = npMaxPairs P
      · exact Or.inr hc2
      · exfalso
        apply h2
        rw [if_neg hc1, if_neg hc2]
        rfl
  · intro q hq hq'
    have hq0 := h3 q hq hq'
    constructor
    · intro heq
      rw [if_pos heq] at hq0
      simp at hq0
    · intro heq
      rw [if_pos heq] at hq0
      rcases List.append_eq_nil.mp hq0 with ⟨-, h2'⟩
      exact List.cons_ne_nil _ _ h2'
  · intro q hq
    have hmem : P.getD q (0, 0) ∈ P := getD_mem P q (0, 0) hq
    constructor
    · exact npMax_ge _ _ (List.mem_flatMap.mpr ⟨_, hmem, by simp⟩)
    · exact npMax_ge _ _ (List.mem_flatMap.mpr ⟨_, hmem, by simp⟩)

/-! ### Claim C1 -/

theorem run_cv_reg_singleton (σ : ℕ → List ℕ → List ℕ) (s : ℕ)
    (X Y : List (List ℚ)) (K k : ℕ) :
    (run_cv_for_hyperparam_reg σ s X Y K [k]).1 = 1 := by
  unfold run_cv_for_hyperparam_reg
  rw [run_cv_reg_foldl σ X Y K [k] [] s]
  have hr : List.range 1 = [0] := rfl
  simp [npWhereEqIdx, npMin, List.filter, hr]

/-- Claim C1 (counterexample): the claim says the returned best k is the
last candidate in `k_list` order achieving the extreme averaged
performance.  With `k_list = [2]` (regression mode), the single — hence
last — extremal candidate is `k = 2`, but the source computes
`best_k = max_occurences_indices[-1] + 1`, a 1-based position into
`k_list`, and returns `1`, which is not even a member of `k_list`. -/
theorem claim1_counterexample :
    (run_cv_for_hyperparam_reg (fun (_ : ℕ) (l : List ℕ) => l) 0
      [[0], [1], [2], [3]] [[0], [0], [1], [1]] 2 [2]).1 = 1 ∧
    (run_cv_for_hyperparam_reg (fun (_ : ℕ) (l : List ℕ) => l) 0
      [[0], [1], [2], [3]] [[0], [0], [1], [1]] 2 [2]).1 ∉ ([2] : List ℕ) := by
  have h1 : (run_cv_for_hyperparam_reg (fun (_ : ℕ) (l : List ℕ) => l) 0
      [[0], [1], [2], [3]] [[0], [0], [1], [1]] 2 [2]).1 = 1 :=
    run_cv_reg_singleton _ 0 _ _ 2 2
  refine ⟨h1, ?_⟩
  rw [h1]
  decide

/-- Claim C1 (amended): `run_cv_for_hyperparam` returns
`best_k = p + 1`, where `p` is the 0-based POSITION in `k_list` of the
last candidate achieving the extreme value (so `best_k` equals the
candidate itself only when `k_list = [1, 2, ...]`, as in `main.py`'s
`range(1, 100)`).  For regression the extreme is the minimum averaged
MSE; for classification, `np.max`/`np.where` act on the `(|k_list|, 2)`
array of (accuracy, F1) pairs, so the extreme is the maximum entry over
BOTH components and a row matches if either component equals it.  In both
modes every recorded performance is bounded by the extreme and no later
candidate attains it. -/
theorem claim1_amended_best_k_is_last_extreme_position
    (σ : ℕ → List ℕ → List ℕ) (s : ℕ) (X Y X' : List (List ℚ)) (Y' : List ℕ)
    (K : ℕ) (ks : List ℕ) (hks : ks ≠ []) :
    (∃ p, (run_cv_for_hyperparam_reg σ s X Y K ks).1 = p + 1 ∧
      p < ks.length ∧
      (run_cv_for_hyperparam_reg σ s X Y K ks).2.2.1.getD p 0 =
        (run_cv_for_hyperparam_reg σ s X Y K ks).2.1 ∧
      (∀ q, p < q → q < ks.length →
        (run_cv_for_hyperparam_reg σ s X Y K ks).2.2.1.getD q 0 ≠
          (run_cv_for_hyperparam_reg σ s X Y K ks).2.1) ∧
      (∀ q, q < ks.length →
        (run_cv_for_hyperparam_reg σ s X Y K ks).2.1 ≤
          (run_cv_for_hyperparam_reg σ s X Y K ks).2.2.1.getD q 0)) ∧
    (∃ p, (run_cv_for_hyperparam_cls σ s X' Y' K ks).1 = p + 1 ∧
      p < ks.length ∧
      (((run_cv_for_hyperparam_cls σ s X' Y' K ks).2.2.1.getD p (0, 0)).1 =
          (run_cv_for_hyperparam_cls σ s X' Y' K ks).2.1 ∨
        ((run_cv_for_hyperparam_cls σ s X' Y' K ks).2.2.1.getD p (0, 0)).2 =
          (run_cv_for_hyperparam_cls σ s X' Y' K ks).2.1) ∧
      (∀ q, p < q → q < ks.length →
        ((run_cv_for_hyperparam_cls σ s X' Y' K ks).2.2.1.getD q (0, 0)).1 ≠
          (run_cv_for_hyperparam_cls σ s X' Y' K ks).2.1 ∧
        ((run_cv_for_hyperparam_cls σ s X' Y' K ks).2.2.1.getD q (0, 0)).2 ≠
          (run_cv_for_hyperparam_cls σ s X' Y' K ks).2.1) ∧
      (∀ q, q < ks.length →
        ((run_cv_for_hyperparam_cls σ s X' Y' K ks).2.2.1.getD q (0, 0)).1 ≤
          (run_cv_for_hyperparam_cls σ s X' Y' K ks).2.1 ∧
        ((run_cv_for_hyperparam_cls σ s X' Y' K ks).2.2.1.getD q (0, 0)).2 ≤
          (run_cv_for_hyperparam_cls σ s X' Y' K ks).2.1)) := by
  have hlen_pos : 0 < ks.length := List.length_pos.mpr hks
  constructor
  · obtain ⟨P, hPdef, e1⟩ : ∃ P : List ℚ,
        P = (List.range ks.length).map
          (fun j => (KFold_cross_validation_KNN_reg σ (s + j) X Y K (ks.getD j 0)).1) ∧
        run_cv_for_hyperparam_reg σ s X Y K ks =
          ((npWhereEqIdx P (npMin P)).getLastD 0 + 1, npMin P, P, s + ks.length) := by
      refine ⟨_, rfl, ?_⟩
      unfold run_cv_for_hyperparam_reg
      rw [run_cv_reg_foldl σ X Y K ks [] s]
      simp
    have hPlen : P.length = ks.length := by rw [hPdef]; simp
    have hPne : P ≠ [] := by
      intro hcon
      rw [hcon] at hPlen
      simp at hPlen
      omega
    obtain ⟨h1, h2, h3, h4⟩ := npWhere_min_last P hPne
    rw [e1]
    exact ⟨(npWhereEqIdx P (npMin P)).getLastD 0, rfl, by omega, h2,
      fun q hq hq' => h3 q hq (by omega), fun q hq => h4 q (by omega)⟩
  · obtain ⟨P, hPdef, e2⟩ : ∃ P : List (ℚ × ℚ),
        P = (List.range ks.length).map
          (fun j => (KFold_cross_validation_KNN_cls σ (s + j) X' Y' K (ks.getD j 0)).1) ∧
        run_cv_for_hyperparam_cls σ s X' Y' K ks =
          ((npWhereEqRows P (npMaxPairs P)).getLastD 0 + 1, npMaxPairs P, P,
            s + ks.length) := by
      refine ⟨_, rfl, ?_⟩
      unfold run_cv_for_hyperparam_cls
      rw [run_cv_cls_foldl σ X' Y' K ks [] s]
      simp
    have hPlen : P.length = ks.length := by rw [hPdef]; simp
    have hPne : P ≠ [] := by
      intro hcon
      rw [hcon] at hPlen
      simp at hPlen
      omega
    obtain ⟨h1, h2, h3, h4⟩ := npWhere_max_pairs_last P hPne
    rw [e2]
    exact ⟨(npWhereEqRows P (npMaxPairs P)).getLastD 0, rfl, by omega, h2,
      fun q hq hq' => h3 q hq (by omega), fun q hq => h4 q (by omega)⟩

/-- Witness for C1 (amended) at a concrete sweep with two candidates. -/
theorem claim1_amended_witness :
    ([1, 2] : List ℕ) ≠ [] ∧
    ((∃ p, (run_cv_for_hyperparam_reg (fun (_ : ℕ) (l : List ℕ) => l) 0
        [[0], [1]] [[0], [1]] 2 [1, 2]).1 = p + 1 ∧
      p < 2 ∧
      (run_cv_for_hyperparam_reg (fun (_ : ℕ) (l : List ℕ) => l) 0
        [[0], [1]] [[0], [1]] 2 [1, 2]).2.2.1.getD p 0 =
        (run_cv_for_hyperparam_reg (fun (_ : ℕ) (l : List ℕ) => l) 0
          [[0], [1]] [[0], [1]] 2 [1, 2]).2.1 ∧
      (∀ q, p < q → q < 2 →
        (run_cv_for_hyperparam_reg (fun (_ : ℕ) (l : List ℕ) => l) 0
          [[0], [1]] [[0], [1]] 2 [1, 2]).2.2.1.getD q 0 ≠
          (run_cv_for_hyperparam_reg (fun (_ : ℕ) (l : List ℕ) => l) 0
            [[0], [1]] [[0], [1]] 2 [1, 2]).2.1) ∧
      (∀ q, q < 2 →
        (run_cv_for_hyperparam_reg (fun (_ : ℕ) (l : List ℕ) => l) 0
          [[0], [1]] [[0], [1]] 2 [1, 2]).2.1 ≤
          (run_cv_for_hyperparam_reg (fun (_ : ℕ) (l : List ℕ) => l) 0
            [[0], [1]] [[0], [1]] 2 [1, 2]).2.2.1.getD q 0)) ∧
    (∃ p, (run_cv_for_hyperparam_cls (fun (_ : ℕ) (l : List ℕ) => l) 0
        [[0], [1]] [0, 1] 2 [1, 2]).1 = p + 1 ∧
      p < 2 ∧
      (((run_cv_for_hyperparam_cls (fun (_ : ℕ) (l : List ℕ) => l) 0
          [[0], [1]] [0, 1] 2 [1, 2]).2.2.1.getD p (0, 0)).1 =
          (run_cv_for_hyperparam_cls (fun (_ : ℕ) (l : List ℕ) => l) 0
            [[0], [1]] [0, 1] 2 [1, 2]).2.1 ∨
        ((run_cv_for_hyperparam_cls (fun (_ : ℕ) (l : List ℕ) => l) 0
          [[0], [1]] [0, 1] 2 [1, 2]).2.2.1.getD p (0, 0)).2 =
          (run_cv_for_hyperparam_cls (fun (_ : ℕ) (l : List ℕ) => l) 0
            [[0], [1]] [0, 1] 2 [1, 2]).2.1) ∧
      (∀ q, p < q → q < 2 →
        ((run_cv_for_hyperparam_cls (fun (_ : ℕ) (l : List ℕ) => l) 0
          [[0], [1]] [0, 1] 2 [1, 2]).2.2.1.getD q (0, 0)).1 ≠
          (run_cv_for_hyperparam_cls (fun (_ : ℕ) (l : List ℕ) => l) 0
            [[0], [1]] [0, 1] 2 [1, 2]).2.1 ∧
        ((run_cv_for_hyperparam_cls (fun (_ : ℕ) (l : List ℕ) => l) 0
          [[0], [1]] [0, 1] 2 [1, 2]).2.2.1.getD q (0, 0)).2 ≠
          (run_cv_for_hyperparam_cls (fun (_ : ℕ) (l : List ℕ) => l) 0
            [[0], [1]] [0, 1] 2 [1, 2]).2.1) ∧
      (∀ q, q < 2 →
        ((run_cv_for_hyperparam_cls (fun (_ : ℕ) (l : List ℕ) => l) 0
          [[0], [1]] [0, 1] 2 [1, 2]).2.2.1.getD q (0, 0)).1 ≤
          (run_cv_for_hyperparam_cls (fun (_ : ℕ) (l : List ℕ) => l) 0
            [[0], [1]] [0, 1] 2 [1, 2]).2.1 ∧
        ((run_cv_for_hyperparam_cls (fun (_ : ℕ) (l : List ℕ) => l) 0
          [[0], [1]] [0, 1] 2 [1, 2]).2.2.1.getD q (0, 0)).2 ≤
          (run_cv_for_hyperparam_cls (fun (_ : ℕ) (l : List ℕ) => l) 0
            [[0], [1]] [0, 1] 2 [1, 2]).2.1))) :=
  ⟨by decide,
    claim1_amended_best_k_is_last_extreme_position (fun (_ : ℕ) (l : List ℕ) => l) 0
      [[0], [1]] [[0], [1]] [[0], [1]] [0, 1] 2 [1, 2] (by decide)⟩

/-! ### Claim C5 -/

theorem le_foldr_max (l : List ℕ) : ∀ (a x : ℕ), x ∈ l → x ≤ l.foldr max a := by
  induction l with
  | nil => intro a x hx; cases hx
  | cons y ys ih =>
    intro a x hx
    rcases List.mem_cons.mp hx with h | h
    · subst h; exact le_max_left x _
    · exact le_trans (ih a x h) (le_max_right y _)

theorem npUnique_mem (l : List ℕ) (x : ℕ) : x ∈ npUnique l ↔ x ∈ l := by
  unfold npUnique
  rw [List.mem_filter]
  constructor
  · rintro ⟨-, h⟩
    exact of_decide_eq_true h
  · intro h
    refine ⟨List.mem_range.mpr ?_, decide_eq_true h⟩
    have := le_foldr_max l 0 x h
    omega

theorem npUnique_nodup (l : List ℕ) : (npUnique l).Nodup :=
  List.Nodup.filter _ (List.nodup_range _)

theorem foldl_skip_add_eq_sum {β : Type} (c : β → Prop) [DecidablePred c] (g : β → ℚ) :
    ∀ (l : List β) (a : ℚ),
      l.foldl (fun acc v => if c v then acc else acc + g v) a =
      a + (l.map (fun v => if c v then 0 else g v)).sum := by
  intro l
  induction l with
  | nil => intro a; simp
  | cons y ys ih =>
    intro a
    rw [List.foldl_cons, List.map_cons, List.sum_cons]
    by_cases hc : c y
    · rw [if_pos hc, if_pos hc, ih]
      ring
    · rw [if_neg hc, if_neg hc, ih]
      ring

/-- Claim C5: `macrof1_fn` computes, for each distinct ground-truth class
value, precision `tp/(tp+fp)` and recall `tp/(tp+fn)`, contributes `0`
for (skips) every class whose `tp` is zero, sums the per-class F1 scores
`2*precision*recall/(precision+recall)` of the remaining classes, and
divides by the TOTAL number of distinct ground-truth classes even when
some classes were skipped.  `npUnique gt_labels` is exactly the set of
distinct ground-truth values (membership and nodup conjuncts). -/
theorem claim5_macrof1_skip_but_divide_by_all (pred_labels gt_labels : List ℕ) :
    macrof1_fn pred_labels gt_labels =
      ((npUnique gt_labels).map (fun val =>
        if (((pred_labels.zip gt_labels).filter
            (fun p => p.1 = val ∧ p.2 = val)).length : ℚ) = 0 then 0
        else 2 * (((((pred_labels.zip gt_labels).filter
            (fun p => p.1 = val ∧ p.2 = val)).length : ℚ) /
            ((((pred_labels.zip gt_labels).filter
              (fun p => p.1 = val ∧ p.2 = val)).length : ℚ) +
              (((pred_labels.zip gt_labels).filter
                (fun p => p.1 = val ∧ p.2 ≠ val)).length : ℚ))) *
            ((((pred_labels.zip gt_labels).filter
              (fun p => p.1 = val ∧ p.2 = val)).length : ℚ) /
              ((((pred_labels.zip gt_labels).filter
                (fun p => p.1 = val ∧ p.2 = val)).length : ℚ) +
                (((pred_labels.zip gt_labels).filter
                  (fun p => p.1 ≠ val ∧ p.2 = val)).length : ℚ)))) /
          ((((pred_labels.zip gt_labels).filter
            (fun p => p.1 = val ∧ p.2 = val)).length : ℚ) /
            ((((pred_labels.zip gt_labels).filter
              (fun p => p.1 = val ∧ p.2 = val)).length : ℚ) +
              (((pred_labels.zip gt_labels).filter
                (fun p => p.1 = val ∧ p.2 ≠ val)).length : ℚ)) +
            (((pred_labels.zip gt_labels).filter
              (fun p => p.1 = val ∧ p.2 = val)).length : ℚ) /
              ((((pred_labels.zip gt_labels).filter
                (fun p => p.1 = val ∧ p.2 = val)).length : ℚ) +
                (((pred_labels.zip gt_labels).filter
                  (fun p => p.1 ≠ val ∧ p.2 = val)).length : ℚ))))).sum /
      ((npUnique gt_labels).length : ℚ) ∧
    (∀ v, v ∈ npUnique gt_labels ↔ v ∈ gt_labels) ∧
    (npUnique gt_labels).Nodup := by
  refine ⟨?_, npUnique_mem gt_labels, npUnique_nodup gt_labels⟩
  have h := foldl_skip_add_eq_sum
    (fun val => (((pred_labels.zip gt_labels).filter
      (fun p => p.1 = val ∧ p.2 = val)).length : ℚ) = 0)
    (fun val =>
      2 * (((((pred_labels.zip gt_labels).filter
          (fun p => p.1 = val ∧ p.2 = val)).length : ℚ) /
          ((((pred_labels.zip gt_labels).filter
            (fun p => p.1 = val ∧ p.2 = val)).length : ℚ) +
            (((pred_labels.zip gt_labels).filter
              (fun p => p.1 = val ∧ p.2 ≠ val)).length : ℚ))) *
          ((((pred_labels.zip gt_labels).filter
            (fun p => p.1 = val ∧ p.2 = val)).length : ℚ) /
            ((((pred_labels.zip gt_labels).filter
              (fun p => p.1 = val ∧ p.2 = val)).length : ℚ) +
              (((pred_labels.zip gt_labels).filter
                (fun p => p.1 ≠ val ∧ p.2 = val)).length : ℚ)))) /
        ((((pred_labels.zip gt_labels).filter
          (fun p => p.1 = val ∧ p.2 = val)).length : ℚ) /
          ((((pred_labels.zip gt_labels).filter
            (fun p => p.1 = val ∧ p.2 = val)).length : ℚ) +
            (((pred_labels.zip gt_labels).filter
              (fun p => p.1 = val ∧ p.2 ≠ val)).length : ℚ)) +
          (((pred_labels.zip gt_labels).filter
            (fun p => p.1 = val ∧ p.2 = val)).length : ℚ) /
            ((((pred_labels.zip gt_labels).filter
              (fun p => p.1 = val ∧ p.2 = val)).length : ℚ) +
              (((pred_labels.zip gt_labels).filter
                (fun p => p.1 ≠ val ∧ p.2 = val)).length : ℚ))))
    (npUnique gt_labels) 0
  simp only [macrof1_fn]
  rw [h, zero_add]

/-! ### Claims C6 and C10 -/

/-- Claim C6: `create_validation_set` returns a validation part of
exactly `⌊split_ratio * N⌋` samples (both features and labels), a
training part with the remaining `N - ⌊split_ratio * N⌋` samples, and the
validation/training index lists — the first `⌊split_ratio * N⌋` and the
rest of the shuffled `np.arange(0, N)` — are disjoint and together a
permutation of `0 .. N-1` (no overlap, no omission). -/
theorem claim6_split_sizes_and_partition (sh : List ℕ → List ℕ)
    (data : List (List ℚ)) (labels : List ℕ) (split_ratio : ℚ)
    (hr0 : 0 < split_ratio) (hr1 : split_ratio < 1)
    (hperm : (sh (List.range data.length)).Perm (List.range data.length)) :
    (create_validation_set sh data labels split_ratio).2.2.2.1.length =
        (⌊split_ratio * (data.length : ℚ)⌋).toNat ∧
    (create_validation_set sh data labels split_ratio).2.2.2.2.length =
        (⌊split_ratio * (data.length : ℚ)⌋).toNat ∧
    (create_validation_set sh data labels split_ratio).2.1.length =
        data.length - (⌊split_ratio * (data.length : ℚ)⌋).toNat ∧
    (create_validation_set sh data labels split_ratio).2.2.1.length =
        data.length - (⌊split_ratio * (data.length : ℚ)⌋).toNat ∧
    List.Disjoint
      ((sh (List.range data.length)).take (⌊split_ratio * (data.length : ℚ)⌋).toNat)
      ((sh (List.range data.length)).drop (⌊split_ratio * (data.length : ℚ)⌋).toNat) ∧
    ((sh (List.range data.length)).take (⌊split_ratio * (data.length : ℚ)⌋).toNat ++
      (sh (List.range data.length)).drop
        (⌊split_ratio * (data.length : ℚ)⌋).toNat).Perm
      (List.range data.length) := by
  have hlen : (sh (List.range data.length)).length = data.length :=
    hperm.length_eq.trans (List.length_range _)
  have hnv : (⌊split_ratio * (data.length : ℚ)⌋).toNat ≤ data.length := by
    have h1 : split_ratio * (data.length : ℚ) ≤ (data.length : ℚ) :=
      mul_le_of_le_one_left (by positivity) (le_of_lt hr1)
    have h2 : (⌊split_ratio * (data.length : ℚ)⌋ : ℤ) ≤ (data.length : ℤ) := by
      calc (⌊split_ratio * (data.length : ℚ)⌋ : ℤ) ≤ ⌊(data.length : ℚ)⌋ :=
            Int.floor_le_floor h1
      _ = (data.length : ℤ) := Int.floor_natCast _
    exact Int.toNat_le.mpr h2
  have hnd : (sh (List.range data.length)).Nodup :=
    hperm.nodup_iff.mpr (List.nodup_range _)
  have hdisj : List.Disjoint
      ((sh (List.range data.length)).take (⌊split_ratio * (data.length : ℚ)⌋).toNat)
      ((sh (List.range data.length)).drop
        (⌊split_ratio * (data.length : ℚ)⌋).toNat) := by
    have hnd2 : ((sh (List.range data.length)).take
        (⌊split_ratio * (data.length : ℚ)⌋).toNat ++
        (sh (List.range data.length)).drop
          (⌊split_ratio * (data.length : ℚ)⌋).toNat).Nodup := by
      rw [List.take_append_drop]
      exact hnd
    exact (List.nodup_append.mp hnd2).2.2
  refine ⟨?_, ?_, ?_, ?_, hdisj, ?_⟩
  · simp [create_validation_set, List.length_take, hlen, min_eq_left hnv]
  · simp [create_validation_set, List.length_take, hlen, min_eq_left hnv]
  · simp [create_validation_set, List.length_drop, hlen]
  · simp [create_validation_set, List.length_drop, hlen]
  · rw [List.take_append_drop]
    exact hperm

/-- Witness for C6 at `N = 5`, `split_ratio = 2/5`, reversal shuffle. -/
theorem claim6_witness :
    ((0 : ℚ) < 2/5 ∧ (2/5 : ℚ) < 1 ∧
      ((fun (l : List ℕ) => l.reverse) (List.range 5)).Perm (List.range 5)) ∧
    ((create_validation_set (fun (l : List ℕ) => l.reverse)
        [[1], [2], [3], [4], [5]] [0, 1, 2, 3, 4] (2/5)).2.2.2.1.length =
        (⌊(2/5 : ℚ) * ((5 : ℕ) : ℚ)⌋).toNat ∧
      (create_validation_set (fun (l : List ℕ) => l.reverse)
        [[1], [2], [3], [4], [5]] [0, 1, 2, 3, 4] (2/5)).2.2.2.2.length =
        (⌊(2/5 : ℚ) * ((5 : ℕ) : ℚ)⌋).toNat ∧
      (create_validation_set (fun (l : List ℕ) => l.reverse)
        [[1], [2], [3], [4], [5]] [0, 1, 2, 3, 4] (2/5)).2.1.length =
        5 - (⌊(2/5 : ℚ) * ((5 : ℕ) : ℚ)⌋).toNat ∧
      (create_validation_set (fun (l : List ℕ) => l.reverse)
        [[1], [2], [3], [4], [5]] [0, 1, 2, 3, 4] (2/5)).2.2.1.length =
        5 - (⌊(2/5 : ℚ) * ((5 : ℕ) : ℚ)⌋).toNat ∧
      List.Disjoint
        (((fun (l : List ℕ) => l.reverse) (List.range 5)).take
          (⌊(2/5 : ℚ) * ((5 : ℕ) : ℚ)⌋).toNat)
        (((fun (l : List ℕ) => l.reverse) (List.range 5)).drop
          (⌊(2/5 : ℚ) * ((5 : ℕ) : ℚ)⌋).toNat) ∧
      (((fun (l : List ℕ) => l.reverse) (List.range 5)).take
          (⌊(2/5 : ℚ) * ((5 : ℕ) : ℚ)⌋).toNat ++
        ((fun (l : List ℕ) => l.reverse) (List.range 5)).drop
          (⌊(2/5 : ℚ) * ((5 : ℕ) : ℚ)⌋).toNat).Perm (List.range 5)) :=
  ⟨⟨by norm_num, by norm_num, by decide⟩,
    claim6_split_sizes_and_partition (fun (l : List ℕ) => l.reverse)
      [[1], [2], [3], [4], [5]] [0, 1, 2, 3, 4] (2/5)
      (by norm_num) (by norm_num) (by decide)⟩

/-- Claim C10: `create_validation_set` leaves the caller's `data` and
`labels` arrays unchanged — the single in-place mutation
(`np.random.shuffle`) targets only the internally created
`np.arange(0, N)` array, and the four returned arrays are fresh copies
produced by fancy indexing.  The first component of the embedded result
is the state of the arrays after the call. -/
theorem claim10_inputs_unchanged (sh : List ℕ → List ℕ) (data : List (List ℚ))
    (labels : List ℕ) (split_ratio : ℚ) :
    (create_validation_set sh data labels split_ratio).1.data = data ∧
    (create_validation_set sh data labels split_ratio).1.labels = labels :=
  ⟨rfl, rfl⟩

/-! ### Claims C7 and C9 -/

theorem argmaxAux_all_le (l : List ℚ) : ∀ (i bi : ℕ) (bv : ℚ),
    (∀ x ∈ l, x ≤ bv) → argmaxAux l i bi bv = bi := by
  induction l with
  | nil => intro i bi bv _; rfl
  | cons y ys ih =>
    intro i bi bv h
    rw [argmaxAux, if_neg (not_lt.mpr (h y (List.mem_cons_self y ys)))]
    exact ih (i + 1) bi bv (fun x hx => h x (List.mem_cons_of_mem y hx))

theorem argmaxAux_low_then_one (post : List ℚ) (hpost : ∀ x ∈ post, x ≤ 1) :
    ∀ (pre : List ℚ) (i bi : ℕ) (bv : ℚ), (∀ x ∈ pre, x ≤ bv) → bv < 1 →
      argmaxAux (pre ++ 1 :: post) i bi bv = i + pre.length := by
  intro pre
  induction pre with
  | nil =>
    intro i bi bv _ hbv
    rw [List.nil_append, argmaxAux, if_pos hbv,
      argmaxAux_all_le post (i + 1) i 1 hpost]
    simp
  | cons y pre' ih =>
    intro i bi bv hpre hbv
    rw [List.cons_append, argmaxAux,
      if_neg (not_lt.mpr (hpre y (List.mem_cons_self y pre'))),
      ih (i + 1) bi bv (fun x hx => hpre x (List.mem_cons_of_mem y hx)) hbv]
    rw [List.length_cons]
    omega

theorem npArgmax_of_onehot_shape (pre post : List ℚ) (hpre : ∀ x ∈ pre, x = 0)
    (hpost : ∀ x ∈ post, x ≤ 1) :
    npArgmax (pre ++ 1 :: post) = pre.length := by
  cases pre with
  | nil =>
    rw [List.nil_append, npArgmax, argmaxAux_all_le post 1 0 1 hpost]
    rfl
  | cons y pre' =>
    rw [List.cons_append, npArgmax]
    have hy : y = 0 := hpre y (List.mem_cons_self y pre')
    rw [hy, argmaxAux_low_then_one post hpost pre' 1 0 0
      (fun x hx => le_of_eq (hpre x (List.mem_cons_of_mem y hx))) (by norm_num)]
    rw [List.length_cons]
    omega

theorem onehot_row_decomp (C lab : ℕ) (hlab : lab < C) :
    (List.range C).map (fun j => if j = lab then (1 : ℚ) else 0) =
      ((List.range lab).map (fun j => if j = lab then (1 : ℚ) else 0)) ++ 1 ::
        (((List.range C).drop (lab + 1)).map
          (fun j => if j = lab then (1 : ℚ) else 0)) := by
  have hlen : lab < ((List.range C).map
      (fun j => if j = lab then (1 : ℚ) else 0)).length := by
    simpa using hlab
  have hsplit := List.take_append_drop lab
    ((List.range C).map (fun j => if j = lab then (1 : ℚ) else 0))
  have htake : ((List.range C).map (fun j => if j = lab then (1 : ℚ) else 0)).take lab =
      (List.range lab).map (fun j => if j = lab then (1 : ℚ) else 0) := by
    rw [← List.map_take, List.take_range, min_eq_left (le_of_lt hlab)]
  have hdrop : ((List.range C).map (fun j => if j = lab then (1 : ℚ) else 0)).drop lab =
      1 :: (((List.range C).drop (lab + 1)).map
        (fun j => if j = lab then (1 : ℚ) else 0)) := by
    rw [List.drop_eq_getElem_cons hlen]
    congr 1
    · rw [List.getElem_map]
      simp [List.getElem_range]
    · rw [List.map_drop]
  rw [← hsplit, htake, hdrop]

theorem npArgmax_onehot_row (C lab : ℕ) (hlab : lab < C) :
    npArgmax ((List.range C).map (fun j => if j = lab then (1 : ℚ) else 0)) = lab := by
  rw [onehot_row_decomp C lab hlab,
    npArgmax_of_onehot_shape _ _ ?_ ?_]
  · simp
  · intro x hx
    obtain ⟨j, hj, rfl⟩ := List.mem_map.mp hx
    have : j ≠ lab := by
      have := List.mem_range.mp hj
      omega
    simp [this]
  · intro x hx
    obtain ⟨j, hj, rfl⟩ := List.mem_map.mp hx
    by_cases hc : j = lab
    · rw [if_pos hc]
    · rw [if_neg hc]; norm_num

/-- Claim C7: the round-trip law
`onehot_to_label (label_to_onehot L C) = L` holds for every integer label
vector `L` with all values in `[0, C)`: `label_to_onehot` puts the single
`1` of row `i` at column `L i`, and `np.argmax` (first occurrence of the
maximum) recovers that column. -/
theorem claim7_onehot_round_trip (labels : List ℕ) (C : ℕ)
    (h : ∀ lab ∈ labels, lab < C) :
    onehot_to_label (label_to_onehot labels (some C)) = labels := by
  simp only [onehot_to_label, label_to_onehot, Option.getD_some]
  rw [List.map_map]
  have : ∀ lab ∈ labels, (npArgmax ∘ fun lab =>
      (List.range C).map (fun j => if j = lab then (1 : ℚ) else 0)) lab = id lab := by
    intro lab hlab
    exact npArgmax_onehot_row C lab (h lab hlab)
  rw [List.map_congr_left this, List.map_id]

/-- Witness for C7 at `L = [2, 0, 1]`, `C = 3`. -/
theorem claim7_witness :
    (∀ lab ∈ ([2, 0, 1] : List ℕ), lab < 3) ∧
    onehot_to_label (label_to_onehot [2, 0, 1] (some 3)) = [2, 0, 1] :=
  ⟨by decide, claim7_onehot_round_trip [2, 0, 1] 3 (by decide)⟩

/-- Claim C9: for labels with values in `[0, C)`, row `i` of
`label_to_onehot labels C` has length `C`, carries a `1` exactly at
column `labels i`, `0` at every other column, and contains exactly one
entry equal to `1`. -/
theorem claim9_onehot_rows (labels : List ℕ) (C : ℕ)
    (h : ∀ lab ∈ labels, lab < C) (i : ℕ) (hi : i < labels.length) :
    ((label_to_onehot labels (some C)).getD i []).length = C ∧
    ((label_to_onehot labels (some C)).getD i []).getD (labels.getD i 0) 0 = 1 ∧
    (∀ j, j < C → j ≠ labels.getD i 0 →
      ((label_to_onehot labels (some C)).getD i []).getD j 0 = 0) ∧
    ((label_to_onehot labels (some C)).getD i []).count 1 = 1 := by
  have hlab : labels.getD i 0 < C := h _ (getD_mem labels i 0 hi)
  have hrow : (label_to_onehot labels (some C)).getD i [] =
      (List.range C).map (fun j => if j = labels.getD i 0 then (1 : ℚ) else 0) := by
    simp only [label_to_onehot, Option.getD_some]
    have hi' : i < (labels.map (fun lab =>
        (List.range C).map (fun j => if j = lab then (1 : ℚ) else 0))).length := by
      simpa using hi
    rw [List.getD_eq_getElem _ _ hi', List.getElem_map,
      List.getD_eq_getElem _ _ hi]
  rw [hrow]
  refine ⟨by simp, ?_, ?_, ?_⟩
  · have hl : labels.getD i 0 < ((List.range C).map
        (fun j => if j = labels.getD i 0 then (1 : ℚ) else 0)).length := by
      simpa using hlab
    rw [List.getD_eq_getElem _ _ hl, List.getElem_map, List.getElem_range, if_pos rfl]
  · intro j hj hne
    have hl : j < ((List.range C).map
        (fun j => if j = labels.getD i 0 then (1 : ℚ) else 0)).length := by
      simpa using hj
    rw [List.getD_eq_getElem _ _ hl, List.getElem_map, List.getElem_range, if_neg hne]
  · rw [List.count, List.countP_map]
    have hc : ∀ j ∈ List.range C,
        (((fun a => a == (1 : ℚ)) ∘ fun j => if j = labels.getD i 0 then (1 : ℚ) else 0) j
            = true ↔
          (j == labels.getD i 0) = true) := by
      intro j _
      by_cases hj : j = labels.getD i 0
      · simp [hj]
      · simp [hj]
    rw [List.countP_congr hc]
    have : List.countP (fun j => j == labels.getD i 0) (List.range C) =
        (List.range C).count (labels.getD i 0) := rfl
    rw [this, List.count_eq_one_of_mem (List.nodup_range C)
      (List.mem_range.mpr hlab)]

/-- Witness for C9 at `L = [1, 0]`, `C = 2`, row `i = 0`. -/
theorem claim9_witness :
    ((∀ lab ∈ ([1, 0] : List ℕ), lab < 2) ∧ 0 < ([1, 0] : List ℕ).length) ∧
    (((label_to_onehot [1, 0] (some 2)).getD 0 []).length = 2 ∧
      ((label_to_onehot [1, 0] (some 2)).getD 0 []).getD
        (([1, 0] : List ℕ).getD 0 0) 0 = 1 ∧
      (∀ j, j < 2 → j ≠ ([1, 0] : List ℕ).getD 0 0 →
        ((label_to_onehot [1, 0] (some 2)).getD 0 []).getD j 0 = 0) ∧
      ((label_to_onehot [1, 0] (some 2)).getD 0 []).count 1 = 1) :=
  ⟨⟨by decide, by decide⟩, claim9_onehot_rows [1, 0] 2 (by decide) 0 (by decide)⟩

/-! ### Claim C8 -/

/-- Claim C8: provided `XᵀX + λI` is invertible, `fit(X, y)` stores the
weight matrix `w = (XᵀX + λI)⁻¹ Xᵀ y` (here the inverse is
`det⁻¹ • adjugate`, and `w` indeed solves the normal equations
`(XᵀX + λI) w = Xᵀ y`), returns the predictions `X @ w` for the training
data itself, and `predict(Q)` with the weights retained from that fit
returns `Q @ w`; with `λ = 0` the solved system is the ordinary
least-squares one `XᵀX w = Xᵀ y`. -/
theorem claim8_fit_predict {N D M Nq : ℕ} (self : LinearRegressionState D M)
    (X : Matrix (Fin N) (Fin D) ℚ) (y : Matrix (Fin N) (Fin M) ℚ)
    (Q : Matrix (Fin Nq) (Fin D) ℚ)
    (hdet : (X.transpose * X + self.lmda • (1 : Matrix (Fin D) (Fin D) ℚ)).det ≠ 0) :
    LinearRegression_fit self X y = some
      ({ self with weights := some ((((X.transpose * X + self.lmda • 1).det⁻¹ • (X.transpose * X + self.lmda • 1).adjugate) * X.transpose) * y) }, X * ((((X.transpose * X + self.lmda • 1).det⁻¹ • (X.transpose * X + self.lmda • 1).adjugate) * X.transpose) * y)) ∧
    (X.transpose * X + self.lmda • 1) * ((((X.transpose * X + self.lmda • 1).det⁻¹ • (X.transpose * X + self.lmda • 1).adjugate) * X.transpose) * y) = X.transpose * y ∧
    LinearRegression_predict { self with weights := some ((((X.transpose * X + self.lmda • 1).det⁻¹ • (X.transpose * X + self.lmda • 1).adjugate) * X.transpose) * y) } Q = some (Q * ((((X.transpose * X + self.lmda • 1).det⁻¹ • (X.transpose * X + self.lmda • 1).adjugate) * X.transpose) * y)) ∧
    (self.lmda = 0 →
      X.transpose * X + self.lmda • (1 : Matrix (Fin D) (Fin D) ℚ) =
        X.transpose * X) := by
  have hinv : (X.transpose * X + self.lmda • (1 : Matrix (Fin D) (Fin D) ℚ)) *
      ((X.transpose * X + self.lmda • 1).det⁻¹ •
        (X.transpose * X + self.lmda • 1).adjugate) = 1 := by
    rw [Matrix.mul_smul, Matrix.mul_adjugate, smul_smul, inv_mul_cancel₀ hdet, one_smul]
  refine ⟨?_, ?_, ?_, ?_⟩
  · simp only [LinearRegression_fit, npLinalgInv, LinearRegression_predict,
      if_neg hdet, Option.some_bind, Option.map_some']
  · rw [← Matrix.mul_assoc, ← Matrix.mul_assoc, hinv, Matrix.one_mul]
  · simp only [LinearRegression_predict, Option.map_some']
  · intro h0
    rw [h0, zero_smul, add_zero]

/-- Witness for C8 at `X = y = Q = 1` (the `1 × 1` identity), `λ = 0`. -/
theorem claim8_witness :
    ((1 : Matrix (Fin 1) (Fin 1) ℚ).transpose * 1 + (0 : ℚ) • (1 : Matrix (Fin 1) (Fin 1) ℚ)).det ≠ 0 ∧
    (LinearRegression_fit (⟨none, 0⟩ : LinearRegressionState 1 1) (1 : Matrix (Fin 1) (Fin 1) ℚ) 1 = some
      ((⟨some (((((1 : Matrix (Fin 1) (Fin 1) ℚ).transpose * 1 + (0 : ℚ) • 1).det⁻¹ • ((1 : Matrix (Fin 1) (Fin 1) ℚ).transpose * 1 + (0 : ℚ) • 1).adjugate) * (1 : Matrix (Fin 1) (Fin 1) ℚ).transpose) * 1), 0⟩ : LinearRegressionState 1 1), (1 : Matrix (Fin 1) (Fin 1) ℚ) * (((((1 : Matrix (Fin 1) (Fin 1) ℚ).transpose * 1 + (0 : ℚ) • 1).det⁻¹ • ((1 : Matrix (Fin 1) (Fin 1) ℚ).transpose * 1 + (0 : ℚ) • 1).adjugate) * (1 : Matrix (Fin 1) (Fin 1) ℚ).transpose) * 1)) ∧
    ((1 : Matrix (Fin 1) (Fin 1) ℚ).transpose * 1 + (0 : ℚ) • 1) * (((((1 : Matrix (Fin 1) (Fin 1) ℚ).transpose * 1 + (0 : ℚ) • 1).det⁻¹ • ((1 : Matrix (Fin 1) (Fin 1) ℚ).transpose * 1 + (0 : ℚ) • 1).adjugate) * (1 : Matrix (Fin 1) (Fin 1) ℚ).transpose) * 1) = (1 : Matrix (Fin 1) (Fin 1) ℚ).transpose * 1 ∧
    LinearRegression_predict (⟨some (((((1 : Matrix (Fin 1) (Fin 1) ℚ).transpose * 1 + (0 : ℚ) • 1).det⁻¹ • ((1 : Matrix (Fin 1) (Fin 1) ℚ).transpose * 1 + (0 : ℚ) • 1).adjugate) * (1 : Matrix (Fin 1) (Fin 1) ℚ).transpose) * 1), 0⟩ : LinearRegressionState 1 1) (1 : Matrix (Fin 1) (Fin 1) ℚ) =
      some ((1 : Matrix (Fin 1) (Fin 1) ℚ) * (((((1 : Matrix (Fin 1) (Fin 1) ℚ).transpose * 1 + (0 : ℚ) • 1).det⁻¹ • ((1 : Matrix (Fin 1) (Fin 1) ℚ).transpose * 1 + (0 : ℚ) • 1).adjugate) * (1 : Matrix (Fin 1) (Fin 1) ℚ).transpose) * 1)) ∧
    ((0 : ℚ) = 0 →
      (1 : Matrix (Fin 1) (Fin 1) ℚ).transpose * 1 + (0 : ℚ) • (1 : Matrix (Fin 1) (Fin 1) ℚ) = (1 : Matrix (Fin 1) (Fin 1) ℚ).transpose * 1)) :=
  ⟨by norm_num [Matrix.transpose_one, Matrix.det_one],
    claim8_fit_predict (⟨none, 0⟩ : LinearRegressionState 1 1) 1 1 1
      (by norm_num [Matrix.transpose_one, Matrix.det_one])⟩

end MS1
